import Mathlib

/-!
Verification of the G2-Gmail core against its design specification.

The development shallowly embeds three components of the repository:

* the text layout engine (`src/domain/paginate.ts`): `wrapLine`, `wrapLines`,
  `paginate`, `getPageText`;
* the content normalizer (`src/domain/htmlToText.ts`): `stripNonAscii`,
  `collapseBlankLines`, `extractText`, `htmlToPlainText`;
* the navigation state machine (`src/app/state.ts`): `GmailStateMachine`,
  modelled as pure transition functions on an `AppState` record, together with
  the label constants of `src/config/constants.ts`.

Modelling conventions: JavaScript strings are `List Char` (abbreviated `Str`)
wherever character-level operations occur, and Lean `String` where only
equality and ordering matter; JavaScript `number` parameters are `Int`, so the
negative and zero branches of the source are preserved; `undefined`-able
values are `Option`; the stable `Array.prototype.sort` is `List.insertionSort`
(a stable sort); the `DOMParser` capability is an explicit
`Str → Option DomNode` parameter, `none` standing for a parse failure
(exception).  Loops whose JavaScript termination relies on a run-time bound
(`Math.max(1, …)`) are given a structural fuel equal to the length of the list
being consumed, which the accompanying lemmas show is sufficient.
-/

/-- JavaScript strings, modelled as lists of characters. -/
abbrev Str := List Char

/-! ### Text layout engine: `src/domain/paginate.ts` -/

/-- `line.match(/^\s*/)?.[0] ?? ""` — the leading whitespace of a line. -/
def leadingWhitespace (line : Str) : Str :=
  line.takeWhile Char.isWhitespace

/-- `content.split(/\s+/).filter((w) => w.length > 0)`: maximal runs of
non-whitespace characters, in order.  `acc` accumulates the current word in
reverse. -/
def jsWordsAux : Str → Str → List Str
  | [], acc => if acc = [] then [] else [acc.reverse]
  | c :: rest, acc =>
    if c.isWhitespace then
      if acc = [] then jsWordsAux rest [] else acc.reverse :: jsWordsAux rest []
    else jsWordsAux rest (c :: acc)

/-- The word list of `wrapLine`. -/
def jsWords (s : Str) : List Str := jsWordsAux s []

/-- The `pushCurrent` closure of `wrapLine`: flush the current chunk, prefixed
with the leading whitespace and defensively truncated to `maxChars`
(`wrapped.push(\x7b...\x7d.slice(0, maxChars))`). -/
def pushCurrent (lw : Str) (maxN : Nat) (acc : List Str) (cur : Str) : List Str :=
  if cur = [] then acc else acc ++ [(lw ++ cur).take maxN]

/-- The hard-split loop of `wrapLine` for a word longer than the effective
width: returns the emitted chunks (NOT truncated to `maxChars` in the source)
and the final remainder.  The JavaScript `while` loop terminates because
`effectiveWidth ≥ 1`; here the fuel starts at the word length, which the
lemmas below show is enough. -/
def hardChunksAux (lw : Str) (eff : Nat) : Nat → Str → List Str × Str
  | 0, w => ([], w)
  | fuel + 1, w =>
    if eff < w.length ∧ 0 < eff then
      let r := hardChunksAux lw eff fuel (w.drop eff)
      ((lw ++ w.take eff) :: r.1, r.2)
    else ([], w)

/-- The hard-split loop of `wrapLine` (`while (remaining.length > effectiveWidth)`). -/
def hardChunks (lw : Str) (eff : Nat) (w : Str) : List Str × Str :=
  hardChunksAux lw eff w.length w

/-- One iteration of the `for (const word of words)` loop of `wrapLine`.
State is (already flushed lines, current line content). -/
def wrapStep (lw : Str) (eff maxN : Nat) (st : List Str × Str) (word : Str) :
    List Str × Str :=
  if eff < word.length then
    let flushed := pushCurrent lw maxN st.1 st.2
    let hc := hardChunks lw eff word
    (flushed ++ hc.1, hc.2)
  else if st.2 = [] then (st.1, word)
  else if st.2.length + 1 + word.length ≤ eff then (st.1, st.2 ++ ' ' :: word)
  else (pushCurrent lw maxN st.1 st.2, word)

/-- `wrapLine(line, maxChars)` from `src/domain/paginate.ts`. -/
def wrapLine (line : Str) (maxChars : Int) : List Str :=
  if maxChars ≤ 0 then [line]
  else if (line.length : Int) ≤ maxChars then [line]
  else
    let lw := leadingWhitespace line
    let words := jsWords (line.dropWhile Char.isWhitespace)
    let eff := max 1 (maxChars.toNat - lw.length)
    if words = [] then [line.take maxChars.toNat]
    else
      let st := words.foldl (wrapStep lw eff maxChars.toNat) ([], [])
      let wrapped := pushCurrent lw maxChars.toNat st.1 st.2
      if wrapped = [] then [[]] else wrapped

/-- `wrapLines(lines, maxChars)` from `src/domain/paginate.ts`. -/
def wrapLines (lines : List Str) (maxChars : Int) : List Str :=
  let wrapped := lines.flatMap (fun l => wrapLine l maxChars)
  if wrapped = [] then [[]] else wrapped

/-- The slicing loop of `paginate`
(`for (let i = 0; i < wrappedLines.length; i += linesPerPage)`), with
`linesPerPage ≥ 1` guaranteed by the guard in `paginate`.  Fuel is the list
length, which always suffices. -/
def chunkPagesAux (n : Nat) : Nat → List Str → List (List Str)
  | _, [] => []
  | 0, _ :: _ => []
  | fuel + 1, x :: xs => (x :: xs.take (n - 1)) :: chunkPagesAux n fuel (xs.drop (n - 1))

/-- The page list built by `paginate` for `linesPerPage ≥ 1`. -/
def chunkPages (n : Nat) (l : List Str) : List (List Str) :=
  chunkPagesAux n l.length l

/-- `paginate(wrappedLines, linesPerPage)` from `src/domain/paginate.ts`. -/
def paginate (wrappedLines : List Str) (linesPerPage : Int) : List (List Str) :=
  if linesPerPage ≤ 0 ∨ wrappedLines = [] then [wrappedLines]
  else
    let pages := chunkPages linesPerPage.toNat wrappedLines
    if pages = [] then [[[]]] else pages

/-- `getPageText(pages, index, linesPerPage)` from `src/domain/paginate.ts`. -/
def getPageText (pages : List (List Str)) (index : Int) (linesPerPage : Int) : Str :=
  let safeIndex := max 0 (min index ((pages.length : Int) - 1))
  let page := (pages.getD safeIndex.toNat [[]])
  let padded := page ++ List.replicate (linesPerPage.toNat - page.length) []
  List.intercalate ['\n'] padded

example : wrapLine "hello world foo".toList 10 = ["hello".toList, "world foo".toList] := by decide

/-! ### Lemmas about the text layout engine -/

theorem pushCurrent_bounds {lw : Str} {maxN : Nat} {acc : List Str} {cur : Str}
    (h : ∀ s ∈ acc, s.length ≤ maxN) :
    ∀ s ∈ pushCurrent lw maxN acc cur, s.length ≤ maxN := by
  unfold pushCurrent
  split
  · exact h
  · intro s hs
    rcases List.mem_append.mp hs with hs | hs
    · exact h s hs
    · rcases List.mem_singleton.mp hs with rfl
      simp

theorem hardChunksAux_bounds (lw : Str) {eff : Nat} (he : 0 < eff) :
    ∀ fuel (w : Str), w.length ≤ fuel →
      (∀ s ∈ (hardChunksAux lw eff fuel w).1, s.length ≤ lw.length + eff) ∧
      (hardChunksAux lw eff fuel w).2.length ≤ eff := by
  intro fuel
  induction fuel with
  | zero =>
    intro w hw
    refine ⟨fun s hs => absurd hs (List.not_mem_nil s), ?_⟩
    show w.length ≤ eff
    omega
  | succ m ih =>
    intro w hw
    by_cases hc : eff < w.length ∧ 0 < eff
    · have hrec := ih (w.drop eff) (by simp; omega)
      have hunf : hardChunksAux lw eff (m + 1) w =
          ((lw ++ w.take eff) :: (hardChunksAux lw eff m (w.drop eff)).1,
            (hardChunksAux lw eff m (w.drop eff)).2) := by
        simp [hardChunksAux, hc]
      rw [hunf]
      constructor
      · intro s hs
        rcases List.mem_cons.mp hs with rfl | hs
        · simp [List.length_take]
        · exact hrec.1 s hs
      · exact hrec.2
    · have hunf : hardChunksAux lw eff (m + 1) w = ([], w) := by
        simp only [hardChunksAux, if_neg hc]
      rw [hunf]
      refine ⟨fun s hs => absurd hs (List.not_mem_nil s), ?_⟩
      show w.length ≤ eff
      by_contra hlt
      exact hc ⟨by omega, he⟩

theorem wrapStep_bounds {lw : Str} {eff maxN : Nat} (he : 0 < eff)
    (heq : lw.length + eff = maxN) {st : List Str × Str} (w : Str)
    (h1 : ∀ s ∈ st.1, s.length ≤ maxN) (_h2 : st.2.length ≤ eff) :
    (∀ s ∈ (wrapStep lw eff maxN st w).1, s.length ≤ maxN) ∧
    (wrapStep lw eff maxN st w).2.length ≤ eff := by
  unfold wrapStep
  split
  case isTrue hlong =>
    have hhc := hardChunksAux_bounds lw he w.length w (Nat.le_refl _)
    constructor
    · intro s hs
      rcases List.mem_append.mp hs with hs | hs
      · exact pushCurrent_bounds h1 s hs
      · exact heq ▸ hhc.1 s hs
    · exact hhc.2
  case isFalse hshort =>
    split
    case isTrue hnil =>
      refine ⟨h1, ?_⟩
      show w.length ≤ eff
      omega
    case isFalse hnil =>
      split
      case isTrue hfit =>
        refine ⟨h1, ?_⟩
        show (st.2 ++ ' ' :: w).length ≤ eff
        simp only [List.length_append, List.length_cons]
        omega
      case isFalse hfit =>
        refine ⟨pushCurrent_bounds h1, ?_⟩
        show w.length ≤ eff
        omega

theorem foldl_wrapStep_bounds {lw : Str} {eff maxN : Nat} (he : 0 < eff)
    (heq : lw.length + eff = maxN) :
    ∀ (words : List Str) (st : List Str × Str),
      (∀ s ∈ st.1, s.length ≤ maxN) → st.2.length ≤ eff →
      (∀ s ∈ (words.foldl (wrapStep lw eff maxN) st).1, s.length ≤ maxN) ∧
      (words.foldl (wrapStep lw eff maxN) st).2.length ≤ eff := by
  intro words
  induction words with
  | nil => exact fun st h1 h2 => ⟨h1, h2⟩
  | cons w ws ih =>
    intro st h1 h2
    rw [List.foldl_cons]
    have hstep := wrapStep_bounds he heq w h1 h2
    exact ih _ hstep.1 hstep.2

/-- Every line produced by `wrapLine` fits in `maxChars`, provided the line's
leading whitespace is strictly shorter than `maxChars`. -/
theorem wrapLine_le (line : Str) (maxChars : Int)
    (h : ((leadingWhitespace line).length : Int) < maxChars) :
    ∀ s ∈ wrapLine line maxChars, (s.length : Int) ≤ maxChars := by
  have h0 : ¬ maxChars ≤ 0 := by
    have := Int.ofNat_nonneg (leadingWhitespace line).length
    omega
  have hN : (maxChars.toNat : Int) = maxChars := Int.toNat_of_nonneg (by omega)
  have hlw : (leadingWhitespace line).length < maxChars.toNat := by omega
  simp only [wrapLine, h0, if_false]
  split
  case isTrue hshort =>
    intro s hs
    rcases List.mem_singleton.mp hs with rfl
    exact hshort
  case isFalse hlong =>
    split
    case isTrue hwords =>
      intro s hs
      rcases List.mem_singleton.mp hs with rfl
      have : (line.take maxChars.toNat).length ≤ maxChars.toNat := by
        simp [List.length_take]
      omega
    case isFalse hwords =>
      set eff := max 1 (maxChars.toNat - (leadingWhitespace line).length) with heffdef
      have he : 0 < eff := by omega
      have heq : (leadingWhitespace line).length + eff = maxChars.toNat := by omega
      have hfold := foldl_wrapStep_bounds he heq
        (jsWords (line.dropWhile Char.isWhitespace)) ([], [])
        (by intro s hs; simp at hs) (by simp)
      split
      case isTrue hemp =>
        intro s hs
        rcases List.mem_singleton.mp hs with rfl
        simp only [List.length_nil, Int.ofNat_zero]
        omega
      case isFalse hemp =>
        intro s hs
        have := pushCurrent_bounds hfold.1 s hs
        omega

/-- `wrapLine` never returns an empty list. -/
theorem wrapLine_ne_nil (line : Str) (maxChars : Int) : wrapLine line maxChars ≠ [] := by
  simp only [wrapLine]
  split
  · simp
  · split
    · simp
    · split
      · simp
      · split
        · simp
        · assumption

/-- `wrapLine` returns the line unchanged when `maxChars ≤ 0` or the line
already fits. -/
theorem wrapLine_eq_single (line : Str) (maxChars : Int)
    (h : maxChars ≤ 0 ∨ (line.length : Int) ≤ maxChars) :
    wrapLine line maxChars = [line] := by
  rcases h with h | h
  · simp [wrapLine, h]
  · by_cases h0 : maxChars ≤ 0 <;> simp [wrapLine, h, h0]

theorem flatMap_eq_self {f : Str → List Str} :
    ∀ L : List Str, (∀ o ∈ L, f o = [o]) → L.flatMap f = L := by
  intro L
  induction L with
  | nil => intro _; rfl
  | cons x xs ih =>
    intro h
    rw [List.flatMap_cons, h x (List.mem_cons_self _ _), ih fun o ho => h o (List.mem_cons_of_mem _ ho)]
    rfl

theorem chunkPagesAux_flatten (n : Nat) :
    ∀ (fuel : Nat) (l : List Str), l.length ≤ fuel →
      (chunkPagesAux n fuel l).flatten = l := by
  intro fuel
  induction fuel with
  | zero =>
    intro l hl
    cases l with
    | nil => rfl
    | cons x xs => simp at hl
  | succ m ih =>
    intro l hl
    cases l with
    | nil => rfl
    | cons x xs =>
      simp only [chunkPagesAux, List.flatten_cons]
      rw [ih (xs.drop (n - 1)) (by simp at hl ⊢; omega)]
      simp [List.take_append_drop]

theorem chunkPages_ne_nil (n : Nat) (x : Str) (xs : List Str) :
    chunkPages n (x :: xs) ≠ [] := by
  simp [chunkPages, chunkPagesAux]

example : paginate (["a", "b", "c", "d", "e"].map String.toList) 2 =
    [[['a'], ['b']], [['c'], ['d']], [['e']]] := by decide

/-! ### Claims about the text layout engine -/

/-- C1, counterexample to the claim as stated: `wrapLine("      ab", 5)`
(six spaces of indentation, width 5) contains the 7-character line
`"      a"` — the hard-split branch re-applies the leading whitespace
without truncating to `maxWidth`. -/
theorem claim1_cex :
    ¬ (∀ s ∈ wrapLine "      ab".toList 5, (s.length : Int) ≤ 5) := by decide

/-- C1 (amended): for every line whose leading whitespace is strictly shorter
than `maxWidth`, every string returned by `wrapLine(line, maxWidth)` has
length at most `maxWidth`. -/
theorem claim1_wrapLine_width (line : Str) (maxChars : Int)
    (h : ((leadingWhitespace line).length : Int) < maxChars) :
    ∀ s ∈ wrapLine line maxChars, (s.length : Int) ≤ maxChars :=
  wrapLine_le line maxChars h

/-- Witness for C1 at a concrete input. -/
theorem claim1_wrapLine_width_witness :
    ((leadingWhitespace "hello world foo".toList).length : Int) < 10 ∧
      ∀ s ∈ wrapLine "hello world foo".toList 10, (s.length : Int) ≤ 10 :=
  ⟨by decide, claim1_wrapLine_width "hello world foo".toList 10 (by decide)⟩

/-- C2: the pages produced by `paginate` concatenate back to exactly the input
line sequence, for every input and every `linesPerPage`; and the spec's
example `paginate(["a","b","c","d","e"], 2) = [["a","b"],["c","d"],["e"]]`
holds. -/
theorem claim2_paginate_exact :
    (∀ (lines : List Str) (n : Int), (paginate lines n).flatten = lines) ∧
    paginate (["a", "b", "c", "d", "e"].map String.toList) 2 =
      [[['a'], ['b']], [['c'], ['d']], [['e']]] := by
  constructor
  · intro lines n
    unfold paginate
    split
    case isTrue h => simp
    case isFalse h =>
      push_neg at h
      obtain ⟨x, xs, rfl⟩ : ∃ y ys, lines = y :: ys := by
        cases lines with
        | nil => exact absurd rfl h.2
        | cons y ys => exact ⟨y, ys, rfl⟩
      simp only [if_neg (chunkPages_ne_nil n.toNat x xs)]
      exact chunkPagesAux_flatten n.toNat (x :: xs).length (x :: xs) (Nat.le_refl _)
  · decide

/-- C3, counterexample to the claim as stated: for the indented line
`"      ab"` at width 5 the wrapped output contains a line longer than the
width, and re-wrapping it changes it. -/
theorem claim3_cex :
    ¬ (wrapLines (wrapLine "      ab".toList 5) 5 = wrapLine "      ab".toList 5) := by decide

/-- C3 (amended): wrapping is idempotent for every line whose leading
whitespace is strictly shorter than the width: re-applying `wrapLines` at the
same width to the output of `wrapLine` returns that output unchanged. -/
theorem claim3_wrap_idempotent (line : Str) (maxChars : Int)
    (h : ((leadingWhitespace line).length : Int) < maxChars) :
    wrapLines (wrapLine line maxChars) maxChars = wrapLine line maxChars := by
  have hb := wrapLine_le line maxChars h
  have hsing : ∀ o ∈ wrapLine line maxChars, wrapLine o maxChars = [o] :=
    fun o ho => wrapLine_eq_single o maxChars (Or.inr (hb o ho))
  have hfm := flatMap_eq_self (wrapLine line maxChars) hsing
  simp only [wrapLines, hfm, if_neg (wrapLine_ne_nil line maxChars)]

/-- Witness for C3 at a concrete input. -/
theorem claim3_wrap_idempotent_witness :
    ((leadingWhitespace "hello world foo".toList).length : Int) < 10 ∧
      wrapLines (wrapLine "hello world foo".toList 10) 10 =
        wrapLine "hello world foo".toList 10 :=
  ⟨by decide, claim3_wrap_idempotent "hello world foo".toList 10 (by decide)⟩

/-- C6, counterexample to the claim as stated: with `linesPerPage = 0` the
selected (empty) page has at most `linesPerPage` lines, yet the returned text
splits into one line, not zero; and a page line containing an embedded
newline splits into more than `linesPerPage` pieces. -/
theorem claim6_cex :
    ((([] : List Str).length : Int) ≤ 0 ∧
      ((getPageText [([] : List Str)] 0 0).splitOn '\n').length ≠ (0 : Int).toNat) ∧
    (((([[['a', '\n', 'b']]] : List (List Str)).getD 0 [[]]).length : Int) ≤ 2 ∧
      ((getPageText [[['a', '\n', 'b']]] 0 2).splitOn '\n').length ≠ (2 : Int).toNat) := by
  decide

/-- C6 (amended): `getPageText` clamps its index into `[0, pages.length-1]`
(querying any index gives the same text as querying its clamped value), and
for `linesPerPage ≥ 1`, whenever the selected page has at most `linesPerPage`
lines none of which contains a newline character, the result splits on
newline into exactly `linesPerPage` lines. -/
theorem claim6_getPageText (pages : List (List Str)) (index n : Int) :
    getPageText pages index n =
      getPageText pages (max 0 (min index ((pages.length : Int) - 1))) n ∧
    (1 ≤ n →
      ∀ page, page = pages.getD (max 0 (min index ((pages.length : Int) - 1))).toNat [[]] →
        (page.length : Int) ≤ n → (∀ l ∈ page, '\n' ∉ l) →
        ((getPageText pages index n).splitOn '\n').length = n.toNat) := by
  constructor
  · have hcl : max 0 (min (max 0 (min index ((pages.length : Int) - 1)))
        ((pages.length : Int) - 1)) = max 0 (min index ((pages.length : Int) - 1)) := by
      omega
    simp only [getPageText, hcl]
  · intro h1 page hpage h2 h3
    have hlen : page.length ≤ n.toNat := by omega
    have hplen : (page ++ List.replicate (n.toNat - page.length) ([] : Str)).length
        = n.toNat := by
      simp only [List.length_append, List.length_replicate]
      omega
    have hne : page ++ List.replicate (n.toNat - page.length) ([] : Str) ≠ [] := by
      intro hnil
      rw [hnil] at hplen
      simp at hplen
      omega
    have hmem : ∀ l ∈ page ++ List.replicate (n.toNat - page.length) ([] : Str),
        '\n' ∉ l := by
      intro l hl
      rcases List.mem_append.mp hl with hl | hl
      · exact h3 l hl
      · rcases List.eq_of_mem_replicate hl with rfl
        exact List.not_mem_nil _
    have hsplit := List.splitOn_intercalate
      (page ++ List.replicate (n.toNat - page.length) ([] : Str)) '\n' hmem hne
    simp only [getPageText, ← hpage]
    rw [hsplit, hplen]

/-- Witness for C6 at a concrete input. -/
theorem claim6_getPageText_witness :
    ((getPageText [[['h', 'i']]] 0 3).splitOn '\n').length = (3 : Int).toNat :=
  (claim6_getPageText [[['h', 'i']]] 0 3).2 (by decide) _ rfl (by decide) (by decide)

/-! ### Content normalizer: `src/domain/htmlToText.ts` -/

/-- JavaScript `trimStart()` over the modelled whitespace class. -/
def trimStartStr (l : Str) : Str := l.dropWhile Char.isWhitespace

/-- JavaScript `trimEnd()`. -/
def trimEndStr (l : Str) : Str := (l.reverse.dropWhile Char.isWhitespace).reverse

/-- JavaScript `trim()`. -/
def trimStr (l : Str) : Str := trimEndStr (trimStartStr l)

/-- `text.replace(/[^\x09\x20-\x7E]/g, "")`: keep printable ASCII and tab. -/
def stripNonAscii (t : Str) : Str :=
  t.filter (fun c => decide (c = '\t' ∨ (' ' ≤ c ∧ c ≤ '~')))

/-- The `for (const line of lines)` loop of `collapseBlankLines`, carrying the
`prevBlank` flag. -/
def collapseCore : List Str → Bool → List Str
  | [], _ => []
  | line :: rest, prevBlank =>
    let trimmed := trimEndStr line
    if (trimStr trimmed).length = 0 then
      if prevBlank then collapseCore rest true
      else [] :: collapseCore rest true
    else trimmed :: collapseCore rest false

/-- `collapseBlankLines(lines)` from `src/domain/htmlToText.ts`: collapse runs
of blank lines to one, then shift/pop leading and trailing blanks. -/
def collapseBlankLines (lines : List Str) : List Str :=
  let result := collapseCore lines false
  let result := result.dropWhile (fun l => l.isEmpty)
  (result.reverse.dropWhile (fun l => l.isEmpty)).reverse

/-- `text.replace(/\s+/g, " ")`, the whitespace normalization applied to text
nodes; the flag records whether we are inside a whitespace run. -/
def collapseWsAux : Str → Bool → Str
  | [], _ => []
  | c :: cs, inRun =>
    if c.isWhitespace then
      if inRun then collapseWsAux cs true else ' ' :: collapseWsAux cs true
    else c :: collapseWsAux cs false

/-- `text.replace(/\s+/g, " ")`. -/
def collapseWsRuns (s : Str) : Str := collapseWsAux s false

/-- The DOM produced by the external `DOMParser` capability: text nodes,
element nodes (tag name as reported by `el.tagName`, i.e. uppercase), and
any other node kind (comments etc.), which `extractText` ignores. -/
inductive DomNode where
  | text (content : Str)
  | elem (tag : String) (children : List DomNode)
  | other

/-- Block-level elements that should produce line breaks. -/
def BLOCK_TAGS : List String :=
  ["P", "DIV", "BR", "HR", "H1", "H2", "H3", "H4", "H5", "H6",
   "LI", "OL", "UL", "TABLE", "TR", "BLOCKQUOTE", "PRE", "SECTION",
   "ARTICLE", "HEADER", "FOOTER", "NAV", "ASIDE", "DT", "DD"]

/-- Tags whose content should be stripped entirely. -/
def STRIP_TAGS : List String := ["SCRIPT", "STYLE", "HEAD", "SVG", "NOSCRIPT"]

mutual

/-- `extractText(node, output)` from `src/domain/htmlToText.ts`, returning the
pushed fragments in order instead of mutating an output array. -/
def extractNode : DomNode → List Str
  | .text content =>
    let normalized := collapseWsRuns content
    if 0 < (trimStr normalized).length then [normalized] else []
  | .other => []
  | .elem tag children =>
    if tag ∈ STRIP_TAGS then []
    else
      let pre := if tag ∈ BLOCK_TAGS then [['\n']] else []
      if tag = "BR" then pre ++ [['\n']]
      else if tag = "HR" then pre ++ ["\n---\n".toList]
      else if tag = "LI" then pre ++ ["\n- ".toList] ++ extractChildren children
      else pre ++ extractChildren children ++ (if tag ∈ BLOCK_TAGS then [['\n']] else [])

/-- The `for (const child of el.childNodes)` recursion. -/
def extractChildren : List DomNode → List Str
  | [] => []
  | c :: cs => extractNode c ++ extractChildren cs

end

/-- The normalization applied to a successfully parsed markup body:
join the fragments, split on newlines, trim and ASCII-filter each line,
collapse blank runs. -/
def normalizedMarkup (body : DomNode) : List Str :=
  collapseBlankLines
    (((extractNode body).flatten.splitOn '\n').map (fun line => stripNonAscii (trimStr line)))

/-- `text.replace(/\r\n?/g, "\n")`: normalize CRLF and lone CR to LF. -/
def normalizeNewlines : Str → Str
  | [] => []
  | '\r' :: '\n' :: rest => '\n' :: normalizeNewlines rest
  | '\r' :: rest => '\n' :: normalizeNewlines rest
  | c :: rest => c :: normalizeNewlines rest

/-- The plain-text fallback branch of `htmlToPlainText`, written out three
times verbatim in the source (`plainFallback && plainFallback.trim().length >
0 ? collapseBlankLines(...) : ["(empty)"]`). -/
def plainFallbackLines (plainFallback : Option Str) : List Str :=
  match plainFallback with
  | some f =>
    if 0 < (trimStr f).length then
      collapseBlankLines (((normalizeNewlines f).splitOn '\n').map stripNonAscii)
    else ["(empty)".toList]
  | none => ["(empty)".toList]

/-- `htmlToPlainText(html, plainFallback)` from `src/domain/htmlToText.ts`.
The `DOMParser` capability is the `parse` parameter; `parse html = none`
models the `catch` branch.  (`!html` in the source is subsumed by the
whitespace-only test, since `"".trim()` is empty.) -/
def htmlToPlainText (parse : Str → Option DomNode) (html : Str)
    (plainFallback : Option Str) : List Str :=
  if (trimStr html).length = 0 then plainFallbackLines plainFallback
  else
    match parse html with
    | none => plainFallbackLines plainFallback
    | some body =>
      let collapsed := normalizedMarkup body
      if collapsed.length = 0 ∨ (collapsed.length = 1 ∧ collapsed.getD 0 [] = []) then
        plainFallbackLines plainFallback
      else collapsed

theorem htmlToPlainText_blank {parse : Str → Option DomNode} {html : Str}
    {fb : Option Str} (h : (trimStr html).length = 0) :
    htmlToPlainText parse html fb = plainFallbackLines fb := by
  simp [htmlToPlainText, h]

theorem htmlToPlainText_parse_fail {parse : Str → Option DomNode} {html : Str}
    {fb : Option Str} (h : parse html = none) :
    htmlToPlainText parse html fb = plainFallbackLines fb := by
  by_cases hb : (trimStr html).length = 0
  · exact htmlToPlainText_blank hb
  · simp [htmlToPlainText, hb, h]

theorem htmlToPlainText_empty_markup {parse : Str → Option DomNode} {html : Str}
    {fb : Option Str} {body : DomNode} (h : parse html = some body)
    (hc : (normalizedMarkup body).length = 0 ∨
      ((normalizedMarkup body).length = 1 ∧ (normalizedMarkup body).getD 0 [] = [])) :
    htmlToPlainText parse html fb = plainFallbackLines fb := by
  by_cases hb : (trimStr html).length = 0
  · exact htmlToPlainText_blank hb
  · simp only [htmlToPlainText, hb, if_false, h]
    rw [if_pos hc]

/-- C7: the content normalizer's fallback chain.  (1) A blank/empty markup
body, (2) a markup parse failure, and (3) a successful parse whose normalized
result is empty or a single blank line, all return the plain-text fallback
branch; that branch is the normalized plain text when the fallback has
non-whitespace content, and the single placeholder line `"(empty)"` when the
fallback is absent or blank.  The spec's example — empty markup with fallback
`"Hi\n\nBye"` — yields the lines `["Hi", "", "Bye"]` for every parser. -/
theorem claim7_fallback_chain :
    (∀ (parse : Str → Option DomNode) (html : Str) (fb : Option Str),
      ((trimStr html).length = 0 →
        htmlToPlainText parse html fb = plainFallbackLines fb) ∧
      (parse html = none →
        htmlToPlainText parse html fb = plainFallbackLines fb) ∧
      (∀ body, parse html = some body →
        (normalizedMarkup body).length = 0 ∨
          ((normalizedMarkup body).length = 1 ∧ (normalizedMarkup body).getD 0 [] = []) →
        htmlToPlainText parse html fb = plainFallbackLines fb)) ∧
    (∀ f : Str, 0 < (trimStr f).length →
      plainFallbackLines (some f) =
        collapseBlankLines (((normalizeNewlines f).splitOn '\n').map stripNonAscii)) ∧
    (∀ f : Str, (trimStr f).length = 0 →
      plainFallbackLines (some f) = ["(empty)".toList]) ∧
    plainFallbackLines none = ["(empty)".toList] ∧
    (∀ parse : Str → Option DomNode,
      htmlToPlainText parse [] (some "Hi\n\nBye".toList) =
        ["Hi".toList, [], "Bye".toList]) := by
  refine ⟨fun parse html fb => ⟨htmlToPlainText_blank,
      htmlToPlainText_parse_fail, fun body hb hc => htmlToPlainText_empty_markup hb hc⟩,
    ?_, ?_, rfl, ?_⟩
  · intro f hf
    simp [plainFallbackLines, hf]
  · intro f hf
    simp [plainFallbackLines, hf]
  · intro parse
    rw [htmlToPlainText_blank (by decide)]
    decide

/-- Witness for C7 at concrete inputs: a parser that always fails, non-blank
markup, and the fallback `"Hi\n\nBye"`. -/
theorem claim7_fallback_chain_witness :
    htmlToPlainText (fun _ => none) "x".toList (some "Hi\n\nBye".toList) =
      plainFallbackLines (some "Hi\n\nBye".toList) :=
  (claim7_fallback_chain.1 (fun _ => none) "x".toList (some "Hi\n\nBye".toList)).2.1 rfl

/-! ### Navigation state machine: `src/app/state.ts` and `src/config/constants.ts` -/

/-- `TEXT_LAYOUT.CHARS_PER_LINE`. -/
def CHARS_PER_LINE : Nat := 64

/-- `SYSTEM_LABELS` from `src/config/constants.ts`: id and friendly name, in
canonical order. -/
def SYSTEM_LABELS : List (String × String) :=
  [("INBOX", "Inbox"), ("STARRED", "Starred"), ("SENT", "Sent"),
   ("DRAFT", "Drafts"), ("SPAM", "Spam"), ("TRASH", "Trash"),
   ("IMPORTANT", "Important"), ("UNREAD", "Unread")]

/-- The `"system" | "user"` union of `GmailLabel.type`. -/
inductive LabelType where
  | system
  | user
deriving DecidableEq

/-- `GmailLabel` from `src/types/contracts.ts`. -/
structure GmailLabel where
  id : String
  name : String
  type : LabelType
  messagesTotal : Option Int := none
  messagesUnread : Option Int := none
deriving DecidableEq

/-- `GmailMessageHeader` from `src/types/contracts.ts`. -/
structure GmailMessageHeader where
  id : String
  threadId : String
  subject : String
  «from» : String
  date : String
  snippet : String
  isUnread : Bool
deriving DecidableEq

/-- `AppMode` from `src/types/contracts.ts`. -/
inductive AppMode where
  | BOOT
  | AUTH_REQUIRED
  | LABELS
  | MESSAGE_LIST
  | READER
  | ERROR
deriving DecidableEq

/-- The private `state` record of `GmailStateMachine`. -/
structure AppState where
  mode : AppMode
  labels : List GmailLabel
  labelDisplayItems : List String
  labelCursor : Int
  currentLabelId : String
  currentLabelName : String
  messages : List GmailMessageHeader
  messageDisplayItems : List String
  messageCursor : Int
  nextPageToken : Option String
  currentMessageId : String
  currentSubject : String
  pages : List (List Str)
  currentPage : Int
  errorMessage : Option String
deriving DecidableEq

/-- The constructor of `GmailStateMachine`. -/
def initialState : AppState where
  mode := .BOOT
  labels := []
  labelDisplayItems := []
  labelCursor := 0
  currentLabelId := ""
  currentLabelName := ""
  messages := []
  messageDisplayItems := []
  messageCursor := 0
  nextPageToken := none
  currentMessageId := ""
  currentSubject := ""
  pages := [[[]]]
  currentPage := 0
  errorMessage := none

/-- `setAuthRequired()`. -/
def setAuthRequired (s : AppState) : AppState :=
  { s with mode := .AUTH_REQUIRED, errorMessage := none }

/-- `setError(message)`. -/
def setError (message : String) (s : AppState) : AppState :=
  { s with mode := .ERROR, errorMessage := some message }

/-- `systemOrder.get(id)` for the map `new Map(SYSTEM_LABELS.map((s, i) =>
[s.id, i]))`: the canonical index of a system label id.  `systemOrder.has(id)`
is `(sysIdx id).isSome`. -/
def sysIdx (id : String) : Option Nat :=
  SYSTEM_LABELS.findIdx? (fun p => p.1 == id)

/-- `systemNameMap.get(id)` for the map `new Map(SYSTEM_LABELS.map((s) =>
[s.id, s.name]))`: the friendly name of a system label id. -/
def sysName (id : String) : Option String :=
  (SYSTEM_LABELS.find? (fun p => p.1 == id)).map (fun p => p.2)

/-- The display-item projection of `setLabels`: name plus unread count,
truncated with ellipsis to `CHARS_PER_LINE - 2` (two columns reserved for the
cursor marker). -/
def labelDisplayItem (l : GmailLabel) : String :=
  let maxLen := CHARS_PER_LINE - 2
  let unread := match l.messagesUnread with
    | some u => if 0 < u then " (" ++ toString u ++ ")" else ""
    | none => ""
  let display := l.name ++ unread
  if maxLen < display.length then display.take (maxLen - 3) ++ "..." else display

/-- `setLabels(labels)`: partition into recognized-system-id and user labels
(anything else is dropped), stable-sort the system part by canonical index
(`(systemOrder.get(a.id) ?? 999) - (systemOrder.get(b.id) ?? 999)`) and the
user part by name (`localeCompare`, modelled as the string order), rename
system labels to their friendly names, reset the cursor, recompute display
items, and enter `LABELS` mode. -/
def setLabels (labels : List GmailLabel) (s : AppState) : AppState :=
  let systemLabels := labels.filter (fun l => (sysIdx l.id).isSome)
  let userLabels := labels.filter (fun l => !(sysIdx l.id).isSome && l.type == .user)
  let sortedSystem := List.insertionSort
    (fun a b => (sysIdx a.id).getD 999 ≤ (sysIdx b.id).getD 999) systemLabels
  let sortedUser := List.insertionSort (fun a b => a.name ≤ b.name) userLabels
  let friendly := sortedSystem.map (fun l => { l with name := (sysName l.id).getD l.name })
  let newLabels := friendly ++ sortedUser
  { s with
    mode := .LABELS
    errorMessage := none
    labels := newLabels
    labelCursor := 0
    labelDisplayItems := newLabels.map labelDisplayItem }

/-- `xs[i] ?? null` with a JavaScript index (negative or past-the-end
indexing yields `undefined`, hence `null`). -/
def jsGet {α : Type} (l : List α) (i : Int) : Option α :=
  if 0 ≤ i then l.get? i.toNat else none

/-- `moveLabelCursor(delta)`: the returned boolean and the updated state. -/
def moveLabelCursor (delta : Int) (s : AppState) : Bool × AppState :=
  let next := s.labelCursor + delta
  if next < 0 ∨ (s.labels.length : Int) ≤ next then (false, s)
  else (true, { s with labelCursor := next })

/-- `getLabelAtCursor()`. -/
def getLabelAtCursor (s : AppState) : Option GmailLabel :=
  jsGet s.labels s.labelCursor

/-- `getLabelAtIndex(displayIndex)`. -/
def getLabelAtIndex (displayIndex : Int) (s : AppState) : Option GmailLabel :=
  jsGet s.labels displayIndex

/-- `formatMessageLine(msg)`: unread marker, sender truncated to 14 chars,
middle-dot separator, subject truncated with ellipsis; two columns reserved
for the cursor prefix. -/
def formatMessageLine (msg : GmailMessageHeader) : String :=
  let maxLen := CHARS_PER_LINE - 2
  let unreadMarker := if msg.isUnread then "*" else " "
  let linePre := unreadMarker ++ " " ++ msg.«from».take 14 ++ " · "
  let remaining := maxLen - linePre.length
  let subject := if remaining < msg.subject.length then
    msg.subject.take (remaining - 3) ++ "..."
  else msg.subject
  linePre ++ subject

/-- `setMessages(labelId, labelName, messages, nextPageToken)`. -/
def setMessages (labelId labelName : String) (messages : List GmailMessageHeader)
    (nextPageToken : Option String) (s : AppState) : AppState :=
  { s with
    mode := .MESSAGE_LIST
    currentLabelId := labelId
    currentLabelName := labelName
    messages := messages
    messageCursor := 0
    nextPageToken := nextPageToken
    errorMessage := none
    messageDisplayItems := messages.map formatMessageLine }

/-- `appendMessages(messages, nextPageToken)`. -/
def appendMessages (messages : List GmailMessageHeader)
    (nextPageToken : Option String) (s : AppState) : AppState :=
  { s with
    messages := s.messages ++ messages
    nextPageToken := nextPageToken
    messageDisplayItems := s.messageDisplayItems ++ messages.map formatMessageLine }

/-- `hasMoreMessages` (`!!this.state.nextPageToken`; note the empty string is
falsy in JavaScript). -/
def hasMoreMessages (s : AppState) : Bool :=
  match s.nextPageToken with
  | none => false
  | some t => !(t == "")

/-- `moveMessageCursor(delta)`. -/
def moveMessageCursor (delta : Int) (s : AppState) : Bool × AppState :=
  let next := s.messageCursor + delta
  if next < 0 ∨ (s.messages.length : Int) ≤ next then (false, s)
  else (true, { s with messageCursor := next })

/-- `getMessageAtCursor()`. -/
def getMessageAtCursor (s : AppState) : Option GmailMessageHeader :=
  jsGet s.messages s.messageCursor

/-- `getMessageAtIndex(displayIndex)`. -/
def getMessageAtIndex (displayIndex : Int) (s : AppState) : Option GmailMessageHeader :=
  jsGet s.messages displayIndex

/-- `enterReader(messageId, subject, pages)`. -/
def enterReader (messageId subject : String) (pages : List (List Str))
    (s : AppState) : AppState :=
  { s with
    mode := .READER
    currentMessageId := messageId
    currentSubject := subject
    pages := pages
    currentPage := 0
    errorMessage := none }

/-- `nextPage()`. -/
def nextPage (s : AppState) : Bool × AppState :=
  if (s.pages.length : Int) - 1 ≤ s.currentPage then (false, s)
  else (true, { s with currentPage := s.currentPage + 1 })

/-- `prevPage()`. -/
def prevPage (s : AppState) : Bool × AppState :=
  if s.currentPage ≤ 0 then (false, s)
  else (true, { s with currentPage := s.currentPage - 1 })

/-- `markMessageRead(messageId)`: no-op when the id is absent
(`findIndex === -1`); otherwise flip the unread flag and regenerate the one
display line in place. -/
def markMessageRead (messageId : String) (s : AppState) : AppState :=
  match s.messages.findIdx? (fun m => m.id == messageId) with
  | none => s
  | some idx =>
    match s.messages.get? idx with
    | none => s
    | some msg =>
      let updated := { msg with isUnread := false }
      { s with
        messages := s.messages.set idx updated
        messageDisplayItems := s.messageDisplayItems.set idx (formatMessageLine updated) }

/-- `backToLabels()`. -/
def backToLabels (s : AppState) : AppState :=
  { s with
    mode := .LABELS
    messages := []
    messageDisplayItems := []
    messageCursor := 0
    currentLabelId := ""
    currentLabelName := "" }

/-- `backToMessageList()`. -/
def backToMessageList (s : AppState) : AppState :=
  { s with
    mode := .MESSAGE_LIST
    currentMessageId := ""
    currentSubject := ""
    pages := [[[]]]
    currentPage := 0 }

/-! ### Claims about the state machine: frame effect of `backToLabels` -/

/-- C10: `backToLabels` clears the message list, its display items, the
message cursor and the current label identity, but leaves the pagination
continuation token untouched — so `hasMoreMessages` stays true across
`backToLabels` whenever it was true, until `setMessages` replaces the token
with its own argument. -/
theorem claim10_backToLabels_frame :
    ∀ s : AppState,
      (backToLabels s).messages = [] ∧
      (backToLabels s).messageDisplayItems = [] ∧
      (backToLabels s).messageCursor = 0 ∧
      (backToLabels s).currentLabelId = "" ∧
      (backToLabels s).currentLabelName = "" ∧
      (backToLabels s).nextPageToken = s.nextPageToken ∧
      (hasMoreMessages s = true → hasMoreMessages (backToLabels s) = true) ∧
      (∀ labelId labelName messages tok,
        (setMessages labelId labelName messages tok s).nextPageToken = tok) := by
  intro s
  refine ⟨rfl, rfl, rfl, rfl, rfl, rfl, ?_, fun _ _ _ _ => rfl⟩
  intro h
  simpa [hasMoreMessages, backToLabels] using h

/-- Witness for C10: a reachable-shaped concrete state with a present token. -/
theorem claim10_backToLabels_frame_witness :
    hasMoreMessages { initialState with nextPageToken := some "tok" } = true ∧
      hasMoreMessages (backToLabels { initialState with nextPageToken := some "tok" }) = true :=
  ⟨by decide, (claim10_backToLabels_frame
    { initialState with nextPageToken := some "tok" }).2.2.2.2.2.2.1 (by decide)⟩

/-! ### Claims about the state machine: totality and boundary reporting -/

theorem jsGet_eq_none {α : Type} (l : List α) (i : Int) :
    jsGet l i = none ↔ i < 0 ∨ (l.length : Int) ≤ i := by
  unfold jsGet
  split
  case isTrue h =>
    rw [List.get?_eq_none]
    omega
  case isFalse h =>
    simp only [true_iff]
    omega

theorem moveLabelCursor_false_frame (d : Int) (s : AppState) :
    (moveLabelCursor d s).1 = false → (moveLabelCursor d s).2 = s := by
  simp only [moveLabelCursor]
  split
  · intro _; rfl
  · intro h; exact absurd h (by simp)

theorem moveMessageCursor_false_frame (d : Int) (s : AppState) :
    (moveMessageCursor d s).1 = false → (moveMessageCursor d s).2 = s := by
  simp only [moveMessageCursor]
  split
  · intro _; rfl
  · intro h; exact absurd h (by simp)

/-- C8: the observable totality contract of `GmailStateMachine`.  The methods
are total functions of the state (they are defined as such in this
embedding — there is no exception channel); invalid indices are reported by
`null` (`none`) from the getters, characterized exactly by out-of-range
indices; impossible moves are reported by a `false` return which leaves the
state unchanged; `nextPage` at the last page and `prevPage` at page 0 return
`false` and leave the page index (indeed the whole state) unchanged. -/
theorem claim8_totality :
    (∀ (i : Int) (s : AppState),
      getLabelAtIndex i s = none ↔ i < 0 ∨ (s.labels.length : Int) ≤ i) ∧
    (∀ s : AppState,
      getLabelAtCursor s = none ↔
        s.labelCursor < 0 ∨ (s.labels.length : Int) ≤ s.labelCursor) ∧
    (∀ (i : Int) (s : AppState),
      getMessageAtIndex i s = none ↔ i < 0 ∨ (s.messages.length : Int) ≤ i) ∧
    (∀ s : AppState,
      getMessageAtCursor s = none ↔
        s.messageCursor < 0 ∨ (s.messages.length : Int) ≤ s.messageCursor) ∧
    (∀ (d : Int) (s : AppState),
      (moveLabelCursor d s).1 = false → (moveLabelCursor d s).2 = s) ∧
    (∀ (d : Int) (s : AppState),
      (moveMessageCursor d s).1 = false → (moveMessageCursor d s).2 = s) ∧
    (∀ s : AppState, s.currentPage = (s.pages.length : Int) - 1 →
      (nextPage s).1 = false ∧ (nextPage s).2 = s) ∧
    (∀ s : AppState, s.currentPage = 0 →
      (prevPage s).1 = false ∧ (prevPage s).2 = s) := by
  refine ⟨fun i s => jsGet_eq_none s.labels i,
    fun s => jsGet_eq_none s.labels s.labelCursor,
    fun i s => jsGet_eq_none s.messages i,
    fun s => jsGet_eq_none s.messages s.messageCursor,
    moveLabelCursor_false_frame, moveMessageCursor_false_frame, ?_, ?_⟩
  · intro s h
    have : (nextPage s) = (false, s) := by
      unfold nextPage
      rw [if_pos (by omega)]
    rw [this]
    exact ⟨rfl, rfl⟩
  · intro s h
    have : (prevPage s) = (false, s) := by
      unfold prevPage
      rw [if_pos (by omega)]
    rw [this]
    exact ⟨rfl, rfl⟩

/-- Witness for C8 at the initial state (one page, empty lists). -/
theorem claim8_totality_witness :
    getLabelAtIndex 0 initialState = none ∧
      ((nextPage initialState).1 = false ∧ (nextPage initialState).2 = initialState) ∧
      ((prevPage initialState).1 = false ∧ (prevPage initialState).2 = initialState) :=
  ⟨(claim8_totality.1 0 initialState).mpr (Or.inr (by decide)),
    claim8_totality.2.2.2.2.2.2.1 initialState (by decide),
    claim8_totality.2.2.2.2.2.2.2 initialState (by decide)⟩

/-! ### Claims about the state machine: cursor invariant (reachable states) -/

/-- States reachable from the constructor through the public mutation
methods of `GmailStateMachine`, with arbitrary arguments. -/
inductive Reachable : AppState → Prop where
  | init : Reachable initialState
  | setAuthRequired {s} : Reachable s → Reachable (setAuthRequired s)
  | setError {s} (m : String) : Reachable s → Reachable (setError m s)
  | setLabels {s} (ls : List GmailLabel) : Reachable s → Reachable (setLabels ls s)
  | moveLabelCursor {s} (d : Int) : Reachable s → Reachable (moveLabelCursor d s).2
  | setMessages {s} (lid lname : String) (ms : List GmailMessageHeader)
      (tok : Option String) : Reachable s → Reachable (setMessages lid lname ms tok s)
  | appendMessages {s} (ms : List GmailMessageHeader) (tok : Option String) :
      Reachable s → Reachable (appendMessages ms tok s)
  | moveMessageCursor {s} (d : Int) : Reachable s → Reachable (moveMessageCursor d s).2
  | enterReader {s} (mid subj : String) (pgs : List (List Str)) :
      Reachable s → Reachable (enterReader mid subj pgs s)
  | nextPage {s} : Reachable s → Reachable (nextPage s).2
  | prevPage {s} : Reachable s → Reachable (prevPage s).2
  | markMessageRead {s} (mid : String) : Reachable s → Reachable (markMessageRead mid s)
  | backToLabels {s} : Reachable s → Reachable (backToLabels s)
  | backToMessageList {s} : Reachable s → Reachable (backToMessageList s)

/-- The cursor invariant maintained by every method: each cursor is
non-negative, is `0` while its list is empty, and is below the list length
while the list is non-empty. -/
def CursorInv (s : AppState) : Prop :=
  0 ≤ s.labelCursor ∧
  (s.labels.length = 0 → s.labelCursor = 0) ∧
  (0 < s.labels.length → s.labelCursor < (s.labels.length : Int)) ∧
  0 ≤ s.messageCursor ∧
  (s.messages.length = 0 → s.messageCursor = 0) ∧
  (0 < s.messages.length → s.messageCursor < (s.messages.length : Int))

theorem reachable_cursorInv : ∀ s : AppState, Reachable s → CursorInv s := by
  intro s h
  induction h with
  | init => exact ⟨le_refl 0, fun _ => rfl, by decide, le_refl 0, fun _ => rfl, by decide⟩
  | setAuthRequired _ ih => exact ih
  | setError m _ ih => exact ih
  | setLabels ls _ ih =>
    rename_i t _
    refine ⟨le_refl 0, fun _ => rfl, fun h => ?_, ih.2.2.2⟩
    show (0 : Int) < ((setLabels ls t).labels.length : Int)
    exact_mod_cast h
  | moveLabelCursor d _ ih =>
    rename_i t _
    show CursorInv (moveLabelCursor d t).2
    simp only [moveLabelCursor]
    split
    case isTrue hg => exact ih
    case isFalse hg =>
      push_neg at hg
      obtain ⟨a, b, c, rest⟩ := ih
      refine ⟨?_, ?_, ?_, rest⟩
      · show (0 : Int) ≤ t.labelCursor + d
        omega
      · intro h0
        have h0' : t.labels.length = 0 := h0
        show t.labelCursor + d = 0
        omega
      · intro h0
        show t.labelCursor + d < (t.labels.length : Int)
        omega
  | setMessages lid lname ms tok _ ih =>
    rename_i t _
    refine ⟨ih.1, ih.2.1, ih.2.2.1, le_refl 0, fun _ => rfl, fun h => ?_⟩
    show (0 : Int) < ((setMessages lid lname ms tok t).messages.length : Int)
    exact_mod_cast h
  | appendMessages ms tok _ ih =>
    rename_i t _
    obtain ⟨a, b, c, d, e, f⟩ := ih
    have hlen : ((appendMessages ms tok t).messages).length
        = t.messages.length + ms.length := by
      simp [appendMessages]
    refine ⟨a, b, c, d, ?_, ?_⟩
    · intro h0
      rw [hlen] at h0
      exact e (by omega)
    · intro h0
      rw [hlen] at h0 ⊢
      show t.messageCursor < ((t.messages.length + ms.length : Nat) : Int)
      omega
  | moveMessageCursor d _ ih =>
    rename_i t _
    show CursorInv (moveMessageCursor d t).2
    simp only [moveMessageCursor]
    split
    case isTrue hg => exact ih
    case isFalse hg =>
      push_neg at hg
      obtain ⟨a, b, c, d2, e, f⟩ := ih
      refine ⟨a, b, c, ?_, ?_, ?_⟩
      · show (0 : Int) ≤ t.messageCursor + d
        omega
      · intro h0
        have h0' : t.messages.length = 0 := h0
        show t.messageCursor + d = 0
        omega
      · intro h0
        show t.messageCursor + d < (t.messages.length : Int)
        omega
  | enterReader mid subj pgs _ ih => exact ih
  | nextPage _ ih =>
    rename_i t _
    show CursorInv (nextPage t).2
    simp only [nextPage]
    split
    · exact ih
    · exact ih
  | prevPage _ ih =>
    rename_i t _
    show CursorInv (prevPage t).2
    simp only [prevPage]
    split
    · exact ih
    · exact ih
  | markMessageRead mid _ ih =>
    rename_i t _
    obtain ⟨a, b, c, d, e, f⟩ := ih
    show CursorInv (markMessageRead mid t)
    unfold markMessageRead
    split
    · exact ⟨a, b, c, d, e, f⟩
    · split
      · exact ⟨a, b, c, d, e, f⟩
      · refine ⟨a, b, c, d, ?_, ?_⟩
        · intro h0
          simp only [List.length_set] at h0
          exact e h0
        · intro h0
          simp only [List.length_set] at h0 ⊢
          exact f h0
  | backToLabels _ ih =>
    exact ⟨ih.1, ih.2.1, ih.2.2.1, le_refl 0, fun _ => rfl,
      fun h0 => absurd (show (0 : Nat) < 0 from h0) (lt_irrefl 0)⟩
  | backToMessageList _ ih => exact ih

theorem moveLabelCursor_false_iff (d : Int) (s : AppState) :
    (moveLabelCursor d s).1 = false ↔
      (s.labelCursor + d < 0 ∨ (s.labels.length : Int) ≤ s.labelCursor + d) := by
  simp only [moveLabelCursor]
  split
  case isTrue h => simpa using h
  case isFalse h => simpa using h

theorem moveMessageCursor_false_iff (d : Int) (s : AppState) :
    (moveMessageCursor d s).1 = false ↔
      (s.messageCursor + d < 0 ∨ (s.messages.length : Int) ≤ s.messageCursor + d) := by
  simp only [moveMessageCursor]
  split
  case isTrue h => simpa using h
  case isFalse h => simpa using h

theorem moveLabelCursor_true_bounds (d : Int) (s : AppState) :
    (moveLabelCursor d s).1 = true →
      0 ≤ (moveLabelCursor d s).2.labelCursor ∧
        (moveLabelCursor d s).2.labelCursor < (s.labels.length : Int) := by
  simp only [moveLabelCursor]
  split
  case isTrue h => intro hc; exact absurd hc (by simp)
  case isFalse h =>
    intro _
    push_neg at h
    exact ⟨h.1, h.2⟩

theorem moveMessageCursor_true_bounds (d : Int) (s : AppState) :
    (moveMessageCursor d s).1 = true →
      0 ≤ (moveMessageCursor d s).2.messageCursor ∧
        (moveMessageCursor d s).2.messageCursor < (s.messages.length : Int) := by
  simp only [moveMessageCursor]
  split
  case isTrue h => intro hc; exact absurd hc (by simp)
  case isFalse h =>
    intro _
    push_neg at h
    exact ⟨h.1, h.2⟩

/-- C5: on every reachable state each cursor lies in `[0, length-1]` while its
list is non-empty; `setLabels`/`setMessages` reset the cursor to 0; a move
that returns `true` lands inside `[0, length-1]` (for every delta) and a move
that returns `false` leaves the state unchanged; and for the unit moves the
controller issues, under the cursor invariant, `false` is returned exactly at
the boundary the move would cross (the last index for `+1`, index 0 for `-1`,
or an empty list). -/
theorem claim5_cursor_bounds :
    (∀ s : AppState, Reachable s →
      (0 ≤ s.labelCursor ∧ (s.labels ≠ [] → s.labelCursor < (s.labels.length : Int))) ∧
      (0 ≤ s.messageCursor ∧ (s.messages ≠ [] → s.messageCursor < (s.messages.length : Int)))) ∧
    (∀ (ls : List GmailLabel) (s : AppState), (setLabels ls s).labelCursor = 0) ∧
    (∀ (lid lname : String) ms tok (s : AppState),
      (setMessages lid lname ms tok s).messageCursor = 0) ∧
    (∀ (d : Int) (s : AppState), (moveLabelCursor d s).1 = true →
      0 ≤ (moveLabelCursor d s).2.labelCursor ∧
        (moveLabelCursor d s).2.labelCursor < (s.labels.length : Int)) ∧
    (∀ (d : Int) (s : AppState), (moveLabelCursor d s).1 = false →
      (moveLabelCursor d s).2 = s) ∧
    (∀ (d : Int) (s : AppState), (moveMessageCursor d s).1 = true →
      0 ≤ (moveMessageCursor d s).2.messageCursor ∧
        (moveMessageCursor d s).2.messageCursor < (s.messages.length : Int)) ∧
    (∀ (d : Int) (s : AppState), (moveMessageCursor d s).1 = false →
      (moveMessageCursor d s).2 = s) ∧
    (∀ s : AppState, 0 ≤ s.labelCursor →
      (s.labels ≠ [] → s.labelCursor < (s.labels.length : Int)) →
      (((moveLabelCursor 1 s).1 = false ↔
        (s.labelCursor = (s.labels.length : Int) - 1 ∨ s.labels = [])) ∧
       ((moveLabelCursor (-1) s).1 = false ↔ (s.labelCursor = 0 ∨ s.labels = [])))) ∧
    (∀ s : AppState, 0 ≤ s.messageCursor →
      (s.messages ≠ [] → s.messageCursor < (s.messages.length : Int)) →
      (((moveMessageCursor 1 s).1 = false ↔
        (s.messageCursor = (s.messages.length : Int) - 1 ∨ s.messages = [])) ∧
       ((moveMessageCursor (-1) s).1 = false ↔ (s.messageCursor = 0 ∨ s.messages = [])))) := by
  refine ⟨?_, fun ls s => rfl, fun lid lname ms tok s => rfl,
    moveLabelCursor_true_bounds, moveLabelCursor_false_frame,
    moveMessageCursor_true_bounds, moveMessageCursor_false_frame, ?_, ?_⟩
  · intro s h
    obtain ⟨a, b, c, d, e, f⟩ := reachable_cursorInv s h
    exact ⟨⟨a, fun hne => c (List.length_pos.mpr hne)⟩,
      ⟨d, fun hne => f (List.length_pos.mpr hne)⟩⟩
  · intro s h1 h2
    have hempty : s.labels = [] ↔ s.labels.length = 0 := List.length_eq_zero.symm
    have h2' : 0 < s.labels.length → s.labelCursor < (s.labels.length : Int) :=
      fun h => h2 (List.ne_nil_of_length_pos h)
    constructor
    · rw [moveLabelCursor_false_iff, hempty]
      omega
    · rw [moveLabelCursor_false_iff, hempty]
      omega
  · intro s h1 h2
    have hempty : s.messages = [] ↔ s.messages.length = 0 := List.length_eq_zero.symm
    have h2' : 0 < s.messages.length → s.messageCursor < (s.messages.length : Int) :=
      fun h => h2 (List.ne_nil_of_length_pos h)
    constructor
    · rw [moveMessageCursor_false_iff, hempty]
      omega
    · rw [moveMessageCursor_false_iff, hempty]
      omega

/-- Witness for C5: the invariant at the initial state, and the boundary
characterization on the one-page initial (empty-list) state. -/
theorem claim5_cursor_bounds_witness :
    ((0 ≤ initialState.labelCursor ∧
        (initialState.labels ≠ [] → initialState.labelCursor < (initialState.labels.length : Int))) ∧
      (0 ≤ initialState.messageCursor ∧
        (initialState.messages ≠ [] → initialState.messageCursor < (initialState.messages.length : Int)))) ∧
    ((moveLabelCursor 1 initialState).1 = false ↔
      (initialState.labelCursor = (initialState.labels.length : Int) - 1 ∨
        initialState.labels = [])) :=
  ⟨claim5_cursor_bounds.1 initialState Reachable.init,
    (claim5_cursor_bounds.2.2.2.2.2.2.2.1 initialState (by decide) (by decide)).1⟩


/-! ### Claims about the state machine: label sorting (`setLabels`) -/
section BucketSort

variable {α : Type} (key : α → Nat)

/-- The bucket decomposition of `l` along key values `js`: for each key in
order, the elements with that key, in their original order. -/
def buckets (js : List Nat) (l : List α) : List α :=
  js.flatMap (fun j => l.filter (fun a => key a == j))

theorem buckets_nil (js : List Nat) : buckets key js ([] : List α) = [] := by
  simp [buckets]

theorem buckets_cons (j : Nat) (js : List Nat) (l : List α) :
    buckets key (j :: js) l = l.filter (fun a => key a == j) ++ buckets key js l := by
  simp [buckets]

theorem orderedInsert_of_forall_le {r : α → α → Prop} [DecidableRel r] {a : α}
    {t : List α} (h : ∀ y ∈ t, r a y) : t.orderedInsert r a = a :: t := by
  cases t with
  | nil => rfl
  | cons b u => exact List.orderedInsert_of_le r u (h b (List.mem_cons_self b u))

theorem orderedInsert_append_of_forall_not {r : α → α → Prop} [DecidableRel r] {a : α}
    {u : List α} (t : List α) (h : ∀ y ∈ u, ¬ r a y) :
    (u ++ t).orderedInsert r a = u ++ t.orderedInsert r a := by
  induction u with
  | nil => rfl
  | cons b u ih =>
    simp only [List.cons_append, List.orderedInsert,
      if_neg (h b (List.mem_cons_self b u))]
    exact congrArg (fun z => b :: z) (ih fun y hy => h y (List.mem_cons_of_mem b hy))

theorem buckets_cons_of_not_mem {js : List Nat} {l : List α} {a : α}
    (h : key a ∉ js) : buckets key js (a :: l) = buckets key js l := by
  induction js with
  | nil => rfl
  | cons j js ih =>
    rw [buckets_cons, buckets_cons]
    have hj : ¬ key a = j := fun e => h (e ▸ List.mem_cons_self j js)
    rw [List.filter_cons_of_neg (by simpa using hj)]
    rw [ih fun hm => h (List.mem_cons_of_mem j hm)]

theorem orderedInsert_buckets {js : List Nat} (hj : js.Pairwise (· < ·)) (a : α)
    (l : List α) (ha : key a ∈ js) :
    (buckets key js l).orderedInsert (fun x y => key x ≤ key y) a
      = buckets key js (a :: l) := by
  induction js with
  | nil => exact absurd ha (List.not_mem_nil _)
  | cons j js ih =>
    have hjlt : ∀ u ∈ js, j < u := (List.pairwise_cons.mp hj).1
    by_cases hja : key a = j
    · have hall : ∀ y ∈ buckets key (j :: js) l, key a ≤ key y := by
        intro y hy
        rw [buckets_cons] at hy
        rcases List.mem_append.mp hy with hy | hy
        · have hyk : key y = j := by simpa using (List.mem_filter.mp hy).2
          omega
        · obtain ⟨u, hu, hyf⟩ := List.mem_flatMap.mp hy
          have hyk : key y = u := by simpa using (List.mem_filter.mp hyf).2
          have := hjlt u hu
          omega
      rw [orderedInsert_of_forall_le hall]
      rw [buckets_cons, buckets_cons]
      rw [List.filter_cons_of_pos (by simpa using hja)]
      rw [buckets_cons_of_not_mem key (fun hm => absurd (hjlt _ hm) (by omega))]
      rfl
    · have haj : key a ∈ js := by
        rcases List.mem_cons.mp ha with h | h
        · exact absurd h hja
        · exact h
      have hnot : ∀ y ∈ l.filter (fun x => key x == j), ¬ key a ≤ key y := by
        intro y hy
        have hyk : key y = j := by simpa using (List.mem_filter.mp hy).2
        have := hjlt _ haj
        omega
      rw [buckets_cons, orderedInsert_append_of_forall_not _ hnot,
        ih (List.pairwise_cons.mp hj).2 haj, buckets_cons,
        List.filter_cons_of_neg (by simpa using hja)]

theorem insertionSort_key_buckets {js : List Nat} (hj : js.Pairwise (· < ·))
    (l : List α) (hl : ∀ a ∈ l, key a ∈ js) :
    List.insertionSort (fun x y => key x ≤ key y) l = buckets key js l := by
  induction l with
  | nil => rw [buckets_nil]; rfl
  | cons a l ih =>
    simp only [List.insertionSort]
    rw [ih fun b hb => hl b (List.mem_cons_of_mem a hb)]
    exact orderedInsert_buckets key hj a l (hl a (List.mem_cons_self a l))

end BucketSort

theorem findIdx?_cons_eq {α : Type} (p : α → Bool) (x : α) (xs : List α) :
    (x :: xs).findIdx? p = if p x then some 0 else (xs.findIdx? p).map (· + 1) := by
  simp [List.findIdx?_cons, List.findIdx?_succ]

theorem findIdx?_some_pred {α : Type} {p : α → Bool} :
    ∀ {l : List α} {j}, l.findIdx? p = some j → ∃ a, l.get? j = some a ∧ p a = true := by
  intro l
  induction l with
  | nil => intro j h; simp [List.findIdx?_nil] at h
  | cons x xs ih =>
    intro j h
    rw [findIdx?_cons_eq] at h
    by_cases hp : p x
    · rw [if_pos hp] at h
      obtain rfl : (0 : Nat) = j := by injection h
      exact ⟨x, rfl, hp⟩
    · rw [if_neg hp] at h
      rcases ho : xs.findIdx? p with _ | k
      · rw [ho] at h; simp at h
      · rw [ho] at h
        obtain rfl : k + 1 = j := by
          have hh : some (k + 1) = some j := h
          injection hh
        obtain ⟨a, hget, hpa⟩ := ih ho
        exact ⟨a, by simpa using hget, hpa⟩

theorem sysIdx_mem_isSome {id : String} {j : Nat} {pr : String × String}
    (hj : SYSTEM_LABELS.get? j = some pr) (hid : pr.1 = id) : sysIdx id ≠ none := by
  intro hnone
  rw [sysIdx, List.findIdx?_eq_none_iff] at hnone
  have hmem : pr ∈ SYSTEM_LABELS := List.get?_mem hj
  have := hnone pr hmem
  simp [hid] at this

/-- The pointwise characterization of membership in the bucket of a system
label at canonical index `j`. -/
theorem sysIdx_bucket_iff {j : Nat} {idj namej : String}
    (hj : SYSTEM_LABELS.get? j = some (idj, namej)) (id : String) :
    (((sysIdx id).getD 999 == j) && (sysIdx id).isSome) = (id == idj) := by
  rcases hs : sysIdx id with _ | k
  · have hne : id ≠ idj := by
      rintro rfl
      exact sysIdx_mem_isSome hj rfl hs
    simp only [Option.getD_none, Option.isSome_none, Bool.and_false]
    symm
    rw [beq_eq_false_iff_ne]
    exact hne
  · obtain ⟨pair, hget, hpred⟩ := findIdx?_some_pred hs
    have hid : pair.1 = id := by simpa using hpred
    by_cases hkj : k = j
    · subst hkj
      rw [hj] at hget
      obtain rfl : (idj, namej) = pair := by injection hget
      simp only [Option.getD_some, Option.isSome_some, Bool.and_true]
      have : id = idj := hid.symm
      simp [this]
    · have hne : id ≠ idj := by
        rintro rfl
        have hn : (SYSTEM_LABELS.map Prod.fst).Nodup := by decide
        have hg1 : (SYSTEM_LABELS.map Prod.fst).get? k = some id := by
          rw [List.get?_map, hget]
          simp [hid]
        have hg2 : (SYSTEM_LABELS.map Prod.fst).get? j = some id := by
          rw [List.get?_map, hj]
          rfl
        have hk8 : k < (SYSTEM_LABELS.map Prod.fst).length := by
          by_contra hge
          rw [List.get?_eq_none.mpr (by omega)] at hg1
          exact Option.noConfusion hg1
        exact hkj (List.get?_inj hk8 hn (hg1.trans hg2.symm))
      simp only [Option.getD_some, Option.isSome_some, Bool.and_true]
      have h1 : (k == j) = false := by simpa using hkj
      have h2 : (id == idj) = false := by simpa using hne
      rw [h1, h2]

/-- The label collection as the spec words it: for each recognized system id
in canonical `SYSTEM_LABELS` order, the input labels carrying that id renamed
to the friendly name, followed by the labels classified `user` (and not
carrying a system id) sorted alphabetically by name; everything else is
dropped. -/
def specLabelOrder (labels : List GmailLabel) : List GmailLabel :=
  (SYSTEM_LABELS.flatMap fun p =>
    (labels.filter (fun l => l.id == p.1)).map (fun l => { l with name := p.2 }))
  ++ List.insertionSort (fun a b => a.name ≤ b.name)
      (labels.filter (fun l => !(sysIdx l.id).isSome && l.type == .user))

theorem sysBlock {j : Nat} {idj namej : String}
    (hj : SYSTEM_LABELS.get? j = some (idj, namej))
    (hn : sysName idj = some namej) (labels : List GmailLabel) :
    ((labels.filter (fun l => (sysIdx l.id).isSome)).filter
        (fun a => (sysIdx a.id).getD 999 == j)).map
      (fun l => { l with name := (sysName l.id).getD l.name })
    = (labels.filter (fun l => l.id == idj)).map (fun l => { l with name := namej }) := by
  rw [List.filter_filter]
  rw [List.filter_congr (fun a _ => sysIdx_bucket_iff hj a.id)]
  apply List.map_congr_left
  intro a ha
  have haid : a.id = idj := by simpa using (List.mem_filter.mp ha).2
  rw [haid, hn]
  rfl

theorem setLabels_labels_eq (labels : List GmailLabel) (s : AppState) :
    (setLabels labels s).labels = specLabelOrder labels := by
  show (List.insertionSort
      (fun a b => (sysIdx a.id).getD 999 ≤ (sysIdx b.id).getD 999)
      (labels.filter (fun l => (sysIdx l.id).isSome))).map
        (fun l => { l with name := (sysName l.id).getD l.name })
      ++ List.insertionSort (fun a b => a.name ≤ b.name)
        (labels.filter (fun l => !(sysIdx l.id).isSome && l.type == .user))
    = specLabelOrder labels
  apply congrArg (fun x => x ++ List.insertionSort
    (fun a b : GmailLabel => a.name ≤ b.name)
    (labels.filter (fun l => !(sysIdx l.id).isSome && l.type == .user)))
  have hl : ∀ a ∈ labels.filter (fun l => (sysIdx l.id).isSome),
      (fun l : GmailLabel => (sysIdx l.id).getD 999) a ∈ List.range 8 := by
    intro a ha
    have hsome : (sysIdx a.id).isSome := by simpa using (List.mem_filter.mp ha).2
    rcases hs : sysIdx a.id with _ | k
    · rw [hs] at hsome; exact absurd hsome (by simp)
    · obtain ⟨pr, hget, _⟩ := findIdx?_some_pred hs
      have hk : k < SYSTEM_LABELS.length := by
        by_contra hge
        rw [List.get?_eq_none.mpr (by omega)] at hget
        exact Option.noConfusion hget
      simpa [hs] using List.mem_range.mpr hk
  have hsort := insertionSort_key_buckets (fun l : GmailLabel => (sysIdx l.id).getD 999)
    (List.pairwise_lt_range 8) (labels.filter (fun l => (sysIdx l.id).isSome)) hl
  rw [hsort]
  rw [show List.range 8 = [0, 1, 2, 3, 4, 5, 6, 7] by decide]
  simp only [buckets, SYSTEM_LABELS, List.flatMap_cons, List.flatMap_nil,
    List.append_nil, List.map_append]
  rw [sysBlock (by rfl) (by rfl) labels, sysBlock (by rfl) (by rfl) labels,
    sysBlock (by rfl) (by rfl) labels, sysBlock (by rfl) (by rfl) labels,
    sysBlock (by rfl) (by rfl) labels, sysBlock (by rfl) (by rfl) labels,
    sysBlock (by rfl) (by rfl) labels, sysBlock (by rfl) (by rfl) labels]

/-- C4: `setLabels` stores exactly the system-id labels first, in canonical
`SYSTEM_LABELS` order and renamed to the friendly names, then the labels
classified `user` sorted alphabetically by name, and drops everything else
(`specLabelOrder`); the user part is a sorted permutation of the user-filtered
input; and the spec's example yields the display order
`["Inbox", "Sent", "Alpha"]`. -/
theorem claim4_setLabels_order :
    (∀ (labels : List GmailLabel) (s : AppState),
      (setLabels labels s).labels = specLabelOrder labels) ∧
    (∀ labels : List GmailLabel,
      List.Sorted (fun a b : GmailLabel => a.name ≤ b.name)
        (List.insertionSort (fun a b : GmailLabel => a.name ≤ b.name)
          (labels.filter (fun l => !(sysIdx l.id).isSome && l.type == .user))) ∧
      (List.insertionSort (fun a b : GmailLabel => a.name ≤ b.name)
          (labels.filter (fun l => !(sysIdx l.id).isSome && l.type == .user))).Perm
        (labels.filter (fun l => !(sysIdx l.id).isSome && l.type == .user))) ∧
    (setLabels
        [{ id := "SENT", name := "SENT", type := .system },
         { id := "INBOX", name := "INBOX", type := .system },
         { id := "Label_1", name := "Alpha", type := .user }]
        initialState).labels.map (fun l => l.name) = ["Inbox", "Sent", "Alpha"] := by
  refine ⟨setLabels_labels_eq, fun labels => ?_, by decide⟩
  haveI : IsTotal GmailLabel (fun a b : GmailLabel => a.name ≤ b.name) :=
    ⟨fun a b => le_total a.name b.name⟩
  haveI : IsTrans GmailLabel (fun a b : GmailLabel => a.name ≤ b.name) :=
    ⟨fun _ _ _ hab hbc => le_trans hab hbc⟩
  exact ⟨List.sorted_insertionSort _ _, List.perm_insertionSort _ _⟩
